import Mathlib

/-! Shallow embedding of src/find_duplicate_files.py.

The file system is modelled as a map from paths to `Option (List Nat)`:
`some bytes` when every metadata/read operation on the file succeeds and
yields those bytes, `none` when accessing the file raises an OSError.
The Python feature functions either raise OSError (`getsize`) or return
`None` on failure (`get_file_hash`); both failure modes are caught or
tested for falsiness inside `group_files`, so both are modelled as the
feature function returning `none`.  The MD5 digest is a parameter of the
model: a function from byte contents to hexdigest strings. -/

namespace DupFinder

abbrev Path := String

/-- Model of the file system: `contents p = some bytes` when path `p` is a
readable file with those bytes, `none` when any I/O operation on `p`
raises an OSError. -/
structure FS where
  contents : Path → Option (List Nat)

/-- Embedding of `os.path.getsize`: byte length of the file, raising
(modelled as `none`) on OSError. -/
def getsize (fs : FS) (file_path : Path) : Option Nat :=
  (fs.contents file_path).map List.length

/-- Embedding of `get_file_hash` (src lines 42-54): md5 hexdigest of the
whole file contents, `None` on OSError. -/
def get_file_hash (md5 : List Nat → String) (fs : FS) (file_path : Path) : Option String :=
  (fs.contents file_path).map md5

/-- A feature value as used by `group_files`: either a file size (an `int`
in Python) or an md5 hexdigest (a `str` in Python). -/
inductive Feature where
  | size (n : Nat)
  | digest (s : String)
deriving DecidableEq

/-- Python truthiness of a feature value (`if file_feature:`): the int 0
and the empty string are falsy, every other size/digest is truthy. -/
def Feature.truthy : Feature → Bool
  | .size n => decide (n ≠ 0)
  | .digest s => decide (s ≠ "")

/-- The size feature function passed to `group_files` by
`group_files_by_size` (Python passes `getsize`, whose OSError is caught
in `group_files`; the caught exception is modelled as `none`). -/
def sizeFeature (fs : FS) (p : Path) : Option Feature :=
  (getsize fs p).map Feature.size

/-- The checksum feature function passed to `group_files` by
`group_files_by_checksum` (Python passes `get_file_hash`, which returns
`None` on OSError). -/
def hashFeature (md5 : List Nat → String) (fs : FS) (p : Path) : Option Feature :=
  (get_file_hash md5 fs p).map Feature.digest

/-- Embedding of `groups_dict.setdefault(file_feature, []).append(file_path)`
on a Python dict in insertion order: the dict is an association list; an
existing key keeps its position and its group is extended at the end, a
new key is appended at the end of the dict. -/
def addToDict {K : Type} [DecidableEq K] (d : List (K × List Path)) (f : K) (p : Path) :
    List (K × List Path) :=
  match d with
  | [] => [(f, [p])]
  | (k', g) :: rest => if k' = f then (k', g ++ [p]) :: rest else (k', g) :: addToDict rest f p

/-- One iteration of the `for file_path in file_path_names` loop of
`group_files` (src lines 76-82): compute the feature (an OSError raised
by the feature function is caught and treated as `None`, modelled by the
feature function returning `none`), then add the file to its group when
the feature is truthy. -/
def groupStep (get_feature_function : Path → Option Feature)
    (d : List (Feature × List Path)) (p : Path) : List (Feature × List Path) :=
  match get_feature_function p with
  | none => d
  | some f => if f.truthy then addToDict d f p else d

/-- Embedding of `group_files` (src lines 57-83): build the feature
dictionary over the input paths (skipping files whose feature function
fails or whose feature value is falsy), then keep the groups of size
larger than 1. -/
def group_files (file_path_names : List Path) (get_feature_function : Path → Option Feature) :
    List (List Path) :=
  let groups_dict := file_path_names.foldl (groupStep get_feature_function) []
  (groups_dict.map Prod.snd).filter (fun g => decide (1 < g.length))

/-- Embedding of `group_files_by_checksum` (src lines 86-98). -/
def group_files_by_checksum (md5 : List Nat → String) (fs : FS) (file_path_names : List Path) :
    List (List Path) :=
  group_files file_path_names (hashFeature md5 fs)

/-- Embedding of `group_files_by_size` (src lines 101-113). -/
def group_files_by_size (fs : FS) (file_path_names : List Path) : List (List Path) :=
  group_files file_path_names (sizeFeature fs)

/-- The chunked comparison loop of `deep_compare_two_files` (src lines
124-133): read 4096 bytes of each file, return False on the first
differing chunk pair, True when both chunks are empty (simultaneous
end-of-file). -/
def chunkCompare (b1 b2 : List Nat) : Bool :=
  if b1.take 4096 ≠ b2.take 4096 then false
  else if h : b1.take 4096 = [] then true
  else chunkCompare (b1.drop 4096) (b2.drop 4096)
termination_by b1.length
decreasing_by
  have hb : b1 ≠ [] := by
    intro hb
    exact h (by simp [hb])
  have hpos : 0 < b1.length := List.length_pos.mpr hb
  simp only [List.length_drop]
  omega

/-- Embedding of `deep_compare_two_files` (src lines 116-135): open both
files (OSError, modelled by a `none` content, gives False) and run the
chunked comparison loop. -/
def deep_compare_two_files (fs : FS) (file_path1 file_path2 : Path) : Bool :=
  match fs.contents file_path1, fs.contents file_path2 with
  | some b1, some b2 => chunkCompare b1 b2
  | _, _ => false

/-- Embedding of `get_same_files` (src lines 138-154): the current file
followed by every file of the list that deep-compares equal to it, in
list order. -/
def get_same_files (fs : FS) (current_file_path : Path) (list_of_file_paths : List Path) :
    List Path :=
  current_file_path ::
    list_of_file_paths.filter (fun q => deep_compare_two_files fs current_file_path q)

/-- Embedding of `remove_same_elements` (src lines 157-170): for each
element of the source list, remove its first occurrence from the other
list if present.  The Python function mutates `another_list`; the model
returns its final value. -/
def remove_same_elements (source_list another_list : List Path) : List Path :=
  source_list.foldl (fun acc e => if e ∈ acc then acc.erase e else acc) another_list

theorem remove_same_elements_length_le (source_list another_list : List Path) :
    (remove_same_elements source_list another_list).length ≤ another_list.length := by
  induction source_list generalizing another_list with
  | nil => exact Nat.le_refl _
  | cons e t ih =>
      refine Nat.le_trans (ih _) ?_
      by_cases hmem : e ∈ another_list
      · simp only [if_pos hmem]
        exact (List.erase_sublist _ _).length_le
      · simp only [if_neg hmem]
        exact Nat.le_refl _

/-- Embedding of `group_files_by_read_content` (src lines 173-193): pop
the first file, collect every remaining file with equal content, remove
them from the remaining list, keep the group when its length exceeds 1,
and loop on what remains. -/
def group_files_by_read_content (fs : FS) (file_path_names : List Path) : List (List Path) :=
  match file_path_names with
  | [] => []
  | current_file :: rest =>
    let same_files := get_same_files fs current_file rest
    let rest' := remove_same_elements same_files.tail rest
    if 1 < same_files.length then
      same_files :: group_files_by_read_content fs rest'
    else
      group_files_by_read_content fs rest'
termination_by file_path_names.length
decreasing_by
  all_goals
    simp only [List.length_cons]
    exact Nat.lt_succ_of_le (remove_same_elements_length_le _ _)

/-- State-passing version of `group_files_by_read_content`: the second
component is the final value of the caller's `file_path_names` list
object, which the Python function empties in place with `pop` and
`remove` while it runs. -/
def group_files_by_read_content_state (fs : FS) (file_path_names : List Path) :
    List (List Path) × List Path :=
  match file_path_names with
  | [] => ([], [])
  | current_file :: rest =>
    let same_files := get_same_files fs current_file rest
    let rest' := remove_same_elements same_files.tail rest
    let res := group_files_by_read_content_state fs rest'
    if 1 < same_files.length then (same_files :: res.1, res.2) else res
termination_by file_path_names.length
decreasing_by
  simp only [List.length_cons]
  exact Nat.lt_succ_of_le (remove_same_elements_length_le _ _)

/-- The two second-stage strategies that the program passes to
`find_duplicate_files` as `group_files_function` (src lines 230-236). -/
inductive Strategy where
  | checksum
  | byteExact
deriving DecidableEq

/-- The grouping function selected by a strategy. -/
def runStrategy (md5 : List Nat → String) (fs : FS) : Strategy → List Path → List (List Path)
  | .checksum => group_files_by_checksum md5 fs
  | .byteExact => group_files_by_read_content fs

/-- Body of `find_duplicate_files` (src lines 212-215): run the size
grouping once, then accumulate the groups produced by the second-stage
grouping function over each size group. -/
def find_duplicate_files_with (fs : FS) (file_path_names : List Path)
    (group_files_function : List Path → List (List Path)) : List (List Path) :=
  (group_files_by_size fs file_path_names).foldl
    (fun groups g => groups ++ group_files_function g) []

/-- Embedding of `find_duplicate_files` (src lines 196-215) applied to a
well-typed list argument and one of the two strategy functions. -/
def find_duplicate_files (md5 : List Nat → String) (fs : FS) (file_path_names : List Path)
    (s : Strategy) : List (List Path) :=
  find_duplicate_files_with fs file_path_names (runStrategy md5 fs s)

/-- Dynamically-typed first argument of `find_duplicate_files`: either an
actual list of paths or a value that is not a list. -/
inductive PyArgList where
  | list (l : List Path)
  | notList

/-- Dynamically-typed second argument of `find_duplicate_files`: either a
callable grouping function or a value that is not callable. -/
inductive PyArgFun where
  | callable (f : List Path → List (List Path))
  | notCallable

/-- Embedding of `find_duplicate_files` including its `isinstance` input
checks (src lines 207-211): a non-list first argument or a non-callable
second argument raises TypeError (modelled as `Except.error`) before any
grouping work and before any file access. -/
def find_duplicate_files_py (fs : FS) (file_path_names : PyArgList)
    (group_files_function : PyArgFun) : Except String (List (List Path)) :=
  match file_path_names with
  | .notList => .error "TypeError"
  | .list l =>
    match group_files_function with
    | .notCallable => .error "TypeError"
    | .callable f => .ok (find_duplicate_files_with fs l f)

/-- Reference grouping used only in proofs: the equivalence classes of a
list under equality of a key function, each class headed by its first
occurrence, classes in order of first occurrence. -/
def keyClasses {K : Type} [DecidableEq K] (key : Path → K) : List Path → List (List Path)
  | [] => []
  | p :: rest =>
    (p :: rest.filter (fun q => decide (key q = key p))) ::
      keyClasses key (rest.filter (fun q => decide (key q ≠ key p)))
termination_by l => l.length
decreasing_by
  simp only [List.length_cons]
  exact Nat.lt_succ_of_le (List.length_filter_le _ _)

/-- Feature-function success as tested by `group_files`: the feature
computation did not fail and its value is truthy. -/
def featOk (get_feature_function : Path → Option Feature) (p : Path) : Bool :=
  match get_feature_function p with
  | some f => f.truthy
  | none => false

/-- Total key function extracted from a feature function; meaningful only
on paths where `featOk` holds. -/
def keyOf (get_feature_function : Path → Option Feature) (p : Path) : Feature :=
  (get_feature_function p).getD (Feature.size 0)

/-- Dictionary insertion step for a total key function; used only in
proofs to relate the `group_files` loop to `keyClasses`. -/
def dictStep {K : Type} [DecidableEq K] (key : Path → K) (d : List (K × List Path))
    (p : Path) : List (K × List Path) :=
  addToDict d (key p) p

/-- Concrete digest function for instances: a constant nonempty string,
hence a digest function that collides on every pair of contents (real
MD5 likewise admits distinct equal-length inputs with equal digests). -/
def constHash : List Nat → String := fun _ => "d"

/-- Concrete file system with two readable one-byte files of equal
content. -/
def fsEqual : FS :=
  ⟨fun p => if p = "a" then some [1] else if p = "b" then some [1] else none⟩

/-- Concrete file system with two readable one-byte files of different
content: same size, and a digest collision under `constHash`. -/
def fsCollide : FS :=
  ⟨fun p => if p = "a" then some [0] else if p = "b" then some [1] else none⟩

/-- Concrete file system with two empty files and two equal one-byte
files. -/
def fsEmpty : FS :=
  ⟨fun p => if p = "e1" then some [] else if p = "e2" then some []
    else if p = "a" then some [1] else if p = "b" then some [1] else none⟩

theorem keyClasses_nil {K : Type} [DecidableEq K] (key : Path → K) :
    keyClasses key [] = [] := by
  rw [keyClasses]

theorem keyClasses_cons {K : Type} [DecidableEq K] (key : Path → K) (p : Path)
    (rest : List Path) :
    keyClasses key (p :: rest) =
      (p :: rest.filter (fun q => decide (key q = key p))) ::
        keyClasses key (rest.filter (fun q => decide (key q ≠ key p))) := by
  rw [keyClasses]

theorem chunkCompare_eq_decide (b1 b2 : List Nat) : chunkCompare b1 b2 = decide (b1 = b2) := by
  suffices h : ∀ (n : Nat) (b1 b2 : List Nat), b1.length ≤ n →
      chunkCompare b1 b2 = decide (b1 = b2) from h b1.length b1 b2 (Nat.le_refl _)
  intro n
  induction n with
  | zero =>
      intro b1 b2 hlen
      have hb1 : b1 = [] := List.eq_nil_of_length_eq_zero (Nat.le_zero.mp hlen)
      subst hb1
      cases b2 with
      | nil => rw [chunkCompare]; simp
      | cons a t => rw [chunkCompare]; simp
  | succ n ih =>
      intro b1 b2 hlen
      rw [chunkCompare]
      by_cases hne : b1.take 4096 = b2.take 4096
      · rw [if_neg (by simpa using hne)]
        by_cases hnil : b1.take 4096 = []
        · rw [dif_pos hnil]
          have hb1 : b1 = [] := by
            cases b1 with
            | nil => rfl
            | cons a t => simp [List.take_succ_cons] at hnil
          have hb2 : b2 = [] := by
            have h2 : b2.take 4096 = [] := hne ▸ hnil
            cases b2 with
            | nil => rfl
            | cons a t => simp [List.take_succ_cons] at h2
          subst hb1; subst hb2
          simp
        · rw [dif_neg hnil]
          have hb1 : b1 ≠ [] := by
            intro h; exact hnil (by simp [h])
          have hpos : 0 < b1.length := List.length_pos.mpr hb1
          have hdrop : (b1.drop 4096).length ≤ n := by
            simp only [List.length_drop]
            omega
          rw [ih _ _ hdrop]
          have hiff : b1.drop 4096 = b2.drop 4096 ↔ b1 = b2 := by
            constructor
            · intro h
              have := List.take_append_drop 4096 b1
              rw [← this, hne, h, List.take_append_drop]
            · intro h; rw [h]
          exact decide_eq_decide.mpr hiff
      · rw [if_pos (by simpa using hne)]
        have : b1 ≠ b2 := by
          intro h; exact hne (by rw [h])
        simp [this]

theorem deep_compare_two_files_iff (fs : FS) (p q : Path) :
    deep_compare_two_files fs p q = true ↔
      ∃ b1 b2, fs.contents p = some b1 ∧ fs.contents q = some b2 ∧ b1 = b2 := by
  unfold deep_compare_two_files
  cases hp : fs.contents p with
  | none => simp
  | some b1 =>
      cases hq : fs.contents q with
      | none => simp
      | some b2 => simp [chunkCompare_eq_decide]

theorem deep_compare_left_none (fs : FS) (p q : Path) (h : fs.contents p = none) :
    deep_compare_two_files fs p q = false := by
  unfold deep_compare_two_files
  rw [h]

theorem deep_compare_left_some (fs : FS) (p q : Path) (b : List Nat)
    (h : fs.contents p = some b) :
    deep_compare_two_files fs p q = decide (fs.contents q = some b) := by
  unfold deep_compare_two_files
  rw [h]
  cases hq : fs.contents q with
  | none => simp
  | some b2 =>
      show chunkCompare b b2 = decide (some b2 = some b)
      rw [chunkCompare_eq_decide]
      exact decide_eq_decide.mpr (by constructor <;> (intro h'; simp_all))

theorem foldl_erase_cons_of_ne (x : Path) :
    ∀ (es acc : List Path), (∀ e ∈ es, e ≠ x) →
    es.foldl (fun a e => if e ∈ a then a.erase e else a) (x :: acc)
      = x :: es.foldl (fun a e => if e ∈ a then a.erase e else a) acc := by
  intro es
  induction es with
  | nil => intro acc _; rfl
  | cons e t ih =>
      intro acc h
      have hex : e ≠ x := h e (List.mem_cons_self e t)
      have ht : ∀ e' ∈ t, e' ≠ x := fun e' he' => h e' (List.mem_cons_of_mem e he')
      simp only [List.foldl_cons]
      by_cases he : e ∈ acc
      · rw [if_pos (List.mem_cons_of_mem x he), if_pos he]
        rw [List.erase_cons_tail]
        · exact ih _ ht
        · simpa using Ne.symm hex
      · have hex2 : e ∉ x :: acc := by
          simp only [List.mem_cons]
          push_neg
          exact ⟨hex, he⟩
        rw [if_neg hex2, if_neg he]
        exact ih _ ht

theorem remove_same_elements_filter (P : Path → Bool) :
    ∀ l : List Path, remove_same_elements (l.filter P) l = l.filter (fun x => !(P x)) := by
  intro l
  induction l with
  | nil => rfl
  | cons x t ih =>
      by_cases hP : P x
      · rw [List.filter_cons_of_pos hP]
        simp only [remove_same_elements, List.foldl_cons] at ih ⊢
        rw [if_pos (List.mem_cons_self x t), List.erase_cons_head, ih]
        rw [List.filter_cons_of_neg (by simp [hP])]
      · rw [List.filter_cons_of_neg hP]
        have hne : ∀ e ∈ t.filter P, e ≠ x := by
          intro e he hex
          subst hex
          exact hP (List.of_mem_filter he)
        simp only [remove_same_elements] at ih ⊢
        rw [foldl_erase_cons_of_ne x _ t hne, ih]
        rw [List.filter_cons_of_pos (by simp [hP])]

theorem addToDict_of_not_mem {K : Type} [DecidableEq K] (f : K) (p : Path) :
    ∀ d : List (K × List Path), f ∉ d.map Prod.fst → addToDict d f p = d ++ [(f, [p])] := by
  intro d
  induction d with
  | nil => intro _; rfl
  | cons kg rest ih =>
      intro h
      obtain ⟨k', g⟩ := kg
      simp only [List.map_cons, List.mem_cons] at h
      push_neg at h
      simp only [addToDict]
      rw [if_neg (fun hh => h.1 hh.symm), ih h.2]
      simp

theorem addToDict_of_mem {K : Type} [DecidableEq K] (f : K) (p : Path) :
    ∀ d : List (K × List Path), (d.map Prod.fst).Nodup → f ∈ d.map Prod.fst →
    addToDict d f p = d.map (fun kg => if kg.1 = f then (kg.1, kg.2 ++ [p]) else kg) := by
  intro d
  induction d with
  | nil => intro _ h; simp at h
  | cons kg rest ih =>
      intro hnd h
      obtain ⟨k', g⟩ := kg
      simp only [List.map_cons, List.nodup_cons] at hnd
      by_cases hk : k' = f
      · subst hk
        have hpt : ∀ kg' ∈ rest, (if kg'.1 = k' then (kg'.1, kg'.2 ++ [p]) else kg') = kg' := by
          intro kg' hkg'
          rw [if_neg]
          intro hh
          exact hnd.1 (hh ▸ List.mem_map_of_mem Prod.fst hkg')
        have hstep : addToDict ((k', g) :: rest) k' p = (k', g ++ [p]) :: rest := by
          simp [addToDict]
        rw [hstep, List.map_cons, if_pos rfl]
        congr 1
        exact ((List.map_congr_left hpt).trans (List.map_id' rest)).symm
      · have hf : f ∈ rest.map Prod.fst := by
          simp only [List.map_cons, List.mem_cons] at h
          rcases h with h | h
          · exact absurd h.symm hk
          · exact h
        simp only [addToDict]
        rw [if_neg hk, ih hnd.2 hf]
        simp only [List.map_cons, if_neg hk]

theorem addToDict_keys {K : Type} [DecidableEq K] (f : K) (p : Path)
    (d : List (K × List Path)) (hnd : (d.map Prod.fst).Nodup) :
    (addToDict d f p).map Prod.fst
      = if f ∈ d.map Prod.fst then d.map Prod.fst else d.map Prod.fst ++ [f] := by
  by_cases h : f ∈ d.map Prod.fst
  · rw [if_pos h, addToDict_of_mem f p d hnd h, List.map_map]
    apply List.map_congr_left
    intro kg _
    by_cases hh : kg.1 = f <;> simp [hh]
  · rw [if_neg h, addToDict_of_not_mem f p d h, List.map_append]
    rfl

theorem addToDict_keys_nodup {K : Type} [DecidableEq K] (f : K) (p : Path)
    (d : List (K × List Path)) (hnd : (d.map Prod.fst).Nodup) :
    ((addToDict d f p).map Prod.fst).Nodup := by
  rw [addToDict_keys f p d hnd]
  by_cases h : f ∈ d.map Prod.fst
  · rwa [if_pos h]
  · rw [if_neg h]
    refine hnd.append (List.nodup_singleton f) ?_
    intro a ha hb
    simp only [List.mem_singleton] at hb
    subst hb
    exact h ha

theorem foldl_dictStep_char {K : Type} [DecidableEq K] (key : Path → K) :
    ∀ (l : List Path) (d : List (K × List Path)), (d.map Prod.fst).Nodup →
    (l.foldl (dictStep key) d).map Prod.snd
      = d.map (fun kg => kg.2 ++ l.filter (fun p => decide (key p = kg.1)))
        ++ keyClasses key (l.filter (fun p => decide (key p ∉ d.map Prod.fst))) := by
  intro l
  induction l with
  | nil =>
      intro d hnd
      simp [keyClasses_nil]
  | cons p t ih =>
      intro d hnd
      have hnd' : ((dictStep key d p).map Prod.fst).Nodup :=
        addToDict_keys_nodup (key p) p d hnd
      simp only [List.foldl_cons]
      rw [ih (dictStep key d p) hnd']
      by_cases hmem : key p ∈ d.map Prod.fst
      · have hkeys : (dictStep key d p).map Prod.fst = d.map Prod.fst := by
          simp only [dictStep]
          rw [addToDict_keys (key p) p d hnd, if_pos hmem]
        congr 1
        · simp only [dictStep]
          rw [addToDict_of_mem (key p) p d hnd hmem, List.map_map]
          apply List.map_congr_left
          intro kg _
          by_cases hk : kg.1 = key p
          · simp only [Function.comp_apply, if_pos hk]
            rw [List.filter_cons_of_pos (by simp [hk])]
            simp
          · simp only [Function.comp_apply, if_neg hk]
            rw [List.filter_cons_of_neg (by simp; intro hh; exact hk hh.symm)]
        · rw [hkeys]
          rw [List.filter_cons_of_neg (by simp [hmem])]
      · have hD : dictStep key d p = d ++ [(key p, [p])] := by
          simp only [dictStep]
          exact addToDict_of_not_mem (key p) p d hmem
        rw [hD]
        have hkeys2 : (d ++ [(key p, [p])]).map Prod.fst = d.map Prod.fst ++ [key p] := by
          rw [List.map_append]
          rfl
        rw [hkeys2, List.map_append]
        have hmap : d.map (fun kg => kg.2 ++ (p :: t).filter (fun q => decide (key q = kg.1)))
            = d.map (fun kg => kg.2 ++ t.filter (fun q => decide (key q = kg.1))) := by
          apply List.map_congr_left
          intro kg hkg
          rw [List.filter_cons_of_neg]
          simp only [decide_eq_true_eq]
          intro hh
          exact hmem (hh ▸ List.mem_map_of_mem Prod.fst hkg)
        rw [hmap]
        rw [List.filter_cons_of_pos (by simp [hmem])]
        rw [keyClasses_cons]
        have hfa : (t.filter (fun q => decide (key q ∉ d.map Prod.fst))).filter
              (fun q => decide (key q = key p)) = t.filter (fun q => decide (key q = key p)) := by
          rw [List.filter_filter]
          apply List.filter_congr
          intro q _
          by_cases hq : key q = key p
          · simp [hq, hmem]
          · simp [hq]
        have hfb : (t.filter (fun q => decide (key q ∉ d.map Prod.fst))).filter
              (fun q => decide (key q ≠ key p))
            = t.filter (fun q => decide (key q ∉ d.map Prod.fst ++ [key p])) := by
          rw [List.filter_filter]
          apply List.filter_congr
          intro q _
          simp only [List.mem_append, List.mem_singleton]
          by_cases hq : key q = key p
          · simp [hq]
          · by_cases hq2 : key q ∈ d.map Prod.fst <;> simp [hq, hq2]
        rw [hfa, hfb]
        simp [List.append_assoc]

theorem foldl_groupStep_filter (feat : Path → Option Feature) :
    ∀ (l : List Path) (d : List (Feature × List Path)),
    l.foldl (groupStep feat) d = (l.filter (featOk feat)).foldl (dictStep (keyOf feat)) d := by
  intro l
  induction l with
  | nil => intro d; rfl
  | cons p t ih =>
      intro d
      simp only [List.foldl_cons]
      cases hf : feat p with
      | none =>
          rw [List.filter_cons_of_neg (by simp [featOk, hf])]
          have hstep : groupStep feat d p = d := by
            simp [groupStep, hf]
          rw [hstep]
          exact ih d
      | some f =>
          by_cases htr : f.truthy
          · rw [List.filter_cons_of_pos (by simp [featOk, hf, htr])]
            simp only [List.foldl_cons]
            have hstep : groupStep feat d p = dictStep (keyOf feat) d p := by
              simp [groupStep, dictStep, keyOf, hf, htr]
            rw [hstep]
            exact ih _
          · rw [List.filter_cons_of_neg (by simp [featOk, hf, htr])]
            have hstep : groupStep feat d p = d := by
              simp [groupStep, hf, htr]
            rw [hstep]
            exact ih d

/-- Characterization of `group_files`: it returns the key classes of the
files whose feature computation succeeded with a truthy value, keeping
only classes of two or more files. -/
theorem group_files_char (l : List Path) (feat : Path → Option Feature) :
    group_files l feat
      = (keyClasses (keyOf feat) (l.filter (featOk feat))).filter
          (fun g => decide (1 < g.length)) := by
  simp only [group_files]
  rw [foldl_groupStep_filter feat l []]
  rw [foldl_dictStep_char (keyOf feat) _ [] (by simp)]
  simp

theorem keyClasses_char {K : Type} [DecidableEq K] (key : Path → K) (m : List Path) :
    ∀ g ∈ keyClasses key m, ∃ x, x ∈ g ∧ g = m.filter (fun q => decide (key q = key x)) := by
  suffices h : ∀ (n : Nat) (m : List Path), m.length ≤ n → ∀ g ∈ keyClasses key m,
      ∃ x, x ∈ g ∧ g = m.filter (fun q => decide (key q = key x)) from h m.length m (Nat.le_refl _)
  intro n
  induction n with
  | zero =>
      intro m hm g hg
      have hmnil : m = [] := List.eq_nil_of_length_eq_zero (Nat.le_zero.mp hm)
      subst hmnil
      rw [keyClasses_nil] at hg
      exact absurd hg (List.not_mem_nil g)
  | succ n ih =>
      intro m hm g hg
      cases m with
      | nil =>
          rw [keyClasses_nil] at hg
          exact absurd hg (List.not_mem_nil g)
      | cons p rest =>
          rw [keyClasses_cons] at hg
          rcases List.mem_cons.mp hg with hg | hg
          · refine ⟨p, ?_, ?_⟩
            · rw [hg]
              exact List.mem_cons_self _ _
            · rw [hg, List.filter_cons_of_pos (by simp)]
          · have hlen : (rest.filter (fun q => decide (key q ≠ key p))).length ≤ n := by
              have hfl := List.length_filter_le (fun q => decide (key q ≠ key p)) rest
              simp only [List.length_cons] at hm
              omega
            obtain ⟨x, hx, hgx⟩ := ih _ hlen g hg
            have hxne : key x ≠ key p := by
              have hxm : x ∈ rest.filter (fun q => decide (key q ≠ key p)) := by
                rw [hgx] at hx
                exact List.mem_of_mem_filter hx
              simpa using List.of_mem_filter hxm
            refine ⟨x, hx, ?_⟩
            rw [hgx, List.filter_filter]
            rw [List.filter_cons_of_neg (by simp; exact fun hh => hxne hh.symm)]
            apply List.filter_congr
            intro q _
            by_cases hq : key q = key x
            · simp [hq, hxne]
            · simp [hq]

theorem keyClasses_mem_mem {K : Type} [DecidableEq K] (key : Path → K) (m : List Path) :
    ∀ g ∈ keyClasses key m, ∀ x ∈ g, x ∈ m := by
  intro g hg x hx
  obtain ⟨y, _, hgy⟩ := keyClasses_char key m g hg
  rw [hgy] at hx
  exact List.mem_of_mem_filter hx

theorem keyClasses_key_const {K : Type} [DecidableEq K] (key : Path → K) (m : List Path) :
    ∀ g ∈ keyClasses key m, ∀ x ∈ g, ∀ y ∈ g, key x = key y := by
  intro g hg x hx y hy
  obtain ⟨z, _, hgz⟩ := keyClasses_char key m g hg
  rw [hgz] at hx hy
  have h1 := List.of_mem_filter hx
  have h2 := List.of_mem_filter hy
  simp only [decide_eq_true_eq] at h1 h2
  rw [h1, h2]

theorem keyClasses_sublist {K : Type} [DecidableEq K] (key : Path → K) (m : List Path) :
    ∀ g ∈ keyClasses key m, g.Sublist m := by
  intro g hg
  obtain ⟨z, _, hgz⟩ := keyClasses_char key m g hg
  rw [hgz]
  exact List.filter_sublist m

theorem keyClasses_nodup {K : Type} [DecidableEq K] (key : Path → K) (m : List Path)
    (hm : m.Nodup) : ∀ g ∈ keyClasses key m, g.Nodup :=
  fun g hg => (keyClasses_sublist key m g hg).nodup hm

theorem keyClasses_pairwise_key {K : Type} [DecidableEq K] (key : Path → K) (m : List Path) :
    (keyClasses key m).Pairwise (fun g1 g2 => ∀ x ∈ g1, ∀ y ∈ g2, key x ≠ key y) := by
  suffices h : ∀ (n : Nat) (m : List Path), m.length ≤ n →
      (keyClasses key m).Pairwise (fun g1 g2 => ∀ x ∈ g1, ∀ y ∈ g2, key x ≠ key y) from
    h m.length m (Nat.le_refl _)
  intro n
  induction n with
  | zero =>
      intro m hm
      have hmnil : m = [] := List.eq_nil_of_length_eq_zero (Nat.le_zero.mp hm)
      subst hmnil
      rw [keyClasses_nil]
      exact List.Pairwise.nil
  | succ n ih =>
      intro m hm
      cases m with
      | nil =>
          rw [keyClasses_nil]
          exact List.Pairwise.nil
      | cons p rest =>
          rw [keyClasses_cons]
          have hlen : (rest.filter (fun q => decide (key q ≠ key p))).length ≤ n := by
            have hfl := List.length_filter_le (fun q => decide (key q ≠ key p)) rest
            simp only [List.length_cons] at hm
            omega
          refine List.pairwise_cons.mpr ⟨?_, ih _ hlen⟩
          intro g hg x hx y hy
          have hxkey : key x = key p := by
            rcases List.mem_cons.mp hx with hx | hx
            · rw [hx]
            · simpa using List.of_mem_filter hx
          have hykey : key y ≠ key p := by
            have hym := keyClasses_mem_mem key _ g hg y hy
            simpa using List.of_mem_filter hym
          rw [hxkey]
          exact fun hh => hykey hh.symm

theorem keyClasses_pairwise_disjoint {K : Type} [DecidableEq K] (key : Path → K)
    (m : List Path) :
    (keyClasses key m).Pairwise (fun g1 g2 => ∀ x ∈ g1, x ∉ g2) := by
  refine (keyClasses_pairwise_key key m).imp ?_
  intro g1 g2 h x hx1 hx2
  exact h x hx1 x hx2 rfl

theorem keyClasses_congr {K1 K2 : Type} [DecidableEq K1] [DecidableEq K2]
    (k1 : Path → K1) (k2 : Path → K2) (m : List Path)
    (hiff : ∀ x ∈ m, ∀ y ∈ m, (k1 x = k1 y ↔ k2 x = k2 y)) :
    keyClasses k1 m = keyClasses k2 m := by
  suffices h : ∀ (n : Nat) (m : List Path), m.length ≤ n →
      (∀ x ∈ m, ∀ y ∈ m, (k1 x = k1 y ↔ k2 x = k2 y)) →
      keyClasses k1 m = keyClasses k2 m from h m.length m (Nat.le_refl _) hiff
  intro n
  induction n with
  | zero =>
      intro m hm _
      have hmnil : m = [] := List.eq_nil_of_length_eq_zero (Nat.le_zero.mp hm)
      subst hmnil
      rw [keyClasses_nil, keyClasses_nil]
  | succ n ih =>
      intro m hm hif
      cases m with
      | nil => rw [keyClasses_nil, keyClasses_nil]
      | cons p rest =>
          rw [keyClasses_cons, keyClasses_cons]
          have hmemp : p ∈ p :: rest := List.mem_cons_self _ _
          have hhead : rest.filter (fun q => decide (k1 q = k1 p))
              = rest.filter (fun q => decide (k2 q = k2 p)) := by
            apply List.filter_congr
            intro q hq
            exact decide_eq_decide.mpr
              (hif q (List.mem_cons_of_mem _ hq) p hmemp)
          have htail : rest.filter (fun q => decide (k1 q ≠ k1 p))
              = rest.filter (fun q => decide (k2 q ≠ k2 p)) := by
            apply List.filter_congr
            intro q hq
            exact decide_eq_decide.mpr
              (not_congr (hif q (List.mem_cons_of_mem _ hq) p hmemp))
          rw [hhead, htail]
          congr 1
          have hlen : (rest.filter (fun q => decide (k2 q ≠ k2 p))).length ≤ n := by
            have hfl := List.length_filter_le (fun q => decide (k2 q ≠ k2 p)) rest
            simp only [List.length_cons] at hm
            omega
          apply ih _ hlen
          intro x hx y hy
          exact hif x (List.mem_cons_of_mem _ (List.mem_of_mem_filter hx))
            y (List.mem_cons_of_mem _ (List.mem_of_mem_filter hy))

theorem featOk_some (feat : Path → Option Feature) (p : Path) (h : featOk feat p = true) :
    ∃ f, feat p = some f ∧ f.truthy = true := by
  unfold featOk at h
  cases hf : feat p with
  | none => rw [hf] at h; exact absurd h (by simp)
  | some f => rw [hf] at h; exact ⟨f, rfl, h⟩

theorem keyOf_eq (feat : Path → Option Feature) (p : Path) (f : Feature)
    (h : feat p = some f) : keyOf feat p = f := by
  rw [keyOf, h]
  rfl

theorem group_files_mem_props (l : List Path) (feat : Path → Option Feature) :
    ∀ g ∈ group_files l feat, ∀ p ∈ g, p ∈ l ∧ featOk feat p = true := by
  intro g hg p hp
  rw [group_files_char] at hg
  have hg' := List.mem_of_mem_filter hg
  have hpm := keyClasses_mem_mem _ _ g hg' p hp
  exact ⟨List.mem_of_mem_filter hpm, List.of_mem_filter hpm⟩

theorem group_files_two_le (l : List Path) (feat : Path → Option Feature) :
    ∀ g ∈ group_files l feat, 2 ≤ g.length := by
  intro g hg
  rw [group_files_char] at hg
  have hlen := List.of_mem_filter hg
  simp only [decide_eq_true_eq] at hlen
  omega

theorem group_files_feat_const (l : List Path) (feat : Path → Option Feature) :
    ∀ g ∈ group_files l feat, ∀ p ∈ g, ∀ q ∈ g, feat p = feat q := by
  intro g hg p hp q hq
  obtain ⟨_, hpo⟩ := group_files_mem_props l feat g hg p hp
  obtain ⟨_, hqo⟩ := group_files_mem_props l feat g hg q hq
  rw [group_files_char] at hg
  have hg' := List.mem_of_mem_filter hg
  have hkey := keyClasses_key_const (keyOf feat) _ g hg' p hp q hq
  obtain ⟨fp, hfp, _⟩ := featOk_some feat p hpo
  obtain ⟨fq, hfq, _⟩ := featOk_some feat q hqo
  rw [keyOf_eq feat p fp hfp, keyOf_eq feat q fq hfq] at hkey
  rw [hfp, hfq, hkey]

theorem group_files_sublist (l : List Path) (feat : Path → Option Feature) :
    ∀ g ∈ group_files l feat, g.Sublist l := by
  intro g hg
  rw [group_files_char] at hg
  have hg' := List.mem_of_mem_filter hg
  exact (keyClasses_sublist _ _ g hg').trans (List.filter_sublist l)

theorem group_files_nodup (l : List Path) (feat : Path → Option Feature) (h : l.Nodup) :
    ∀ g ∈ group_files l feat, g.Nodup :=
  fun g hg => (group_files_sublist l feat g hg).nodup h

theorem group_files_pairwise (l : List Path) (feat : Path → Option Feature) :
    (group_files l feat).Pairwise (fun g1 g2 => ∀ p ∈ g1, p ∉ g2) := by
  rw [group_files_char]
  exact (keyClasses_pairwise_disjoint _ _).sublist (List.filter_sublist _)

theorem group_files_filter_char (l : List Path) (feat : Path → Option Feature) :
    ∀ g ∈ group_files l feat, ∃ f : Feature,
      (∀ p ∈ g, feat p = some f) ∧
      g = l.filter (fun p => featOk feat p && decide (feat p = some f)) := by
  intro g hg
  have hprops := group_files_mem_props l feat g hg
  rw [group_files_char] at hg
  have hg' := List.mem_of_mem_filter hg
  obtain ⟨x, hx, hgx⟩ := keyClasses_char (keyOf feat) _ g hg'
  have hxm := keyClasses_mem_mem _ _ g hg' x hx
  obtain ⟨fx, hfx, _⟩ := featOk_some feat x (List.of_mem_filter hxm)
  refine ⟨fx, ?_, ?_⟩
  · intro p hp
    have hpm := keyClasses_mem_mem _ _ g hg' p hp
    obtain ⟨fp, hfp, _⟩ := featOk_some feat p (List.of_mem_filter hpm)
    have hkey := keyClasses_key_const (keyOf feat) _ g hg' p hp x hx
    rw [keyOf_eq feat p fp hfp, keyOf_eq feat x fx hfx] at hkey
    rw [hfp, hkey]
  · rw [hgx, List.filter_filter]
    apply List.filter_congr
    intro p _
    by_cases hok : featOk feat p = true
    · obtain ⟨fp, hfp, _⟩ := featOk_some feat p hok
      rw [hok, keyOf_eq feat p fp hfp, keyOf_eq feat x fx hfx, hfp]
      simp
    · have hnok : featOk feat p = false := by
        cases hv : featOk feat p
        · rfl
        · exact absurd hv hok
      rw [hnok]
      simp

theorem group_files_by_read_content_nil (fs : FS) :
    group_files_by_read_content fs [] = [] := by
  rw [group_files_by_read_content]

theorem group_files_by_read_content_cons (fs : FS) (cur : Path) (rest : List Path) :
    group_files_by_read_content fs (cur :: rest) =
      if 1 < (get_same_files fs cur rest).length then
        get_same_files fs cur rest ::
          group_files_by_read_content fs
            (remove_same_elements (get_same_files fs cur rest).tail rest)
      else
        group_files_by_read_content fs
          (remove_same_elements (get_same_files fs cur rest).tail rest) := by
  rw [group_files_by_read_content]

theorem group_files_by_read_content_state_nil (fs : FS) :
    group_files_by_read_content_state fs [] = ([], []) := by
  rw [group_files_by_read_content_state]

theorem group_files_by_read_content_state_cons (fs : FS) (cur : Path) (rest : List Path) :
    group_files_by_read_content_state fs (cur :: rest) =
      (let res := group_files_by_read_content_state fs
          (remove_same_elements (get_same_files fs cur rest).tail rest)
       if 1 < (get_same_files fs cur rest).length then
         (get_same_files fs cur rest :: res.1, res.2)
       else res) := by
  rw [group_files_by_read_content_state]

/-- Characterization of `group_files_by_read_content`: unreadable files
fall out (a pivot with an I/O error matches nothing, so it forms a
discarded singleton), and the readable files are partitioned into
classes of equal content, keeping classes of two or more files. -/
theorem group_files_by_read_content_char (fs : FS) (l : List Path) :
    group_files_by_read_content fs l
      = (keyClasses (fun p => fs.contents p)
          (l.filter (fun p => (fs.contents p).isSome))).filter
            (fun g => decide (1 < g.length)) := by
  suffices h : ∀ (n : Nat) (l : List Path), l.length ≤ n →
      group_files_by_read_content fs l
        = (keyClasses (fun p => fs.contents p)
            (l.filter (fun p => (fs.contents p).isSome))).filter
              (fun g => decide (1 < g.length)) from h l.length l (Nat.le_refl _)
  intro n
  induction n with
  | zero =>
      intro l hl
      have hlnil : l = [] := List.eq_nil_of_length_eq_zero (Nat.le_zero.mp hl)
      subst hlnil
      rw [group_files_by_read_content_nil]
      simp [keyClasses_nil]
  | succ n ih =>
      intro l hl
      cases l with
      | nil =>
          rw [group_files_by_read_content_nil]
          simp [keyClasses_nil]
      | cons cur rest =>
          simp only [List.length_cons] at hl
          rw [group_files_by_read_content_cons]
          cases hc : fs.contents cur with
          | none =>
              have hsame : get_same_files fs cur rest = [cur] := by
                simp only [get_same_files]
                rw [List.filter_eq_nil_iff.mpr]
                intro q _
                rw [deep_compare_left_none fs cur q hc]
                simp
              rw [hsame]
              rw [if_neg (by simp)]
              have hrse : remove_same_elements ([cur] : List Path).tail rest = rest := rfl
              rw [hrse]
              rw [List.filter_cons_of_neg (by simp [hc])]
              exact ih rest (by omega)
          | some b =>
              have hsame : get_same_files fs cur rest
                  = cur :: rest.filter (fun q => decide (fs.contents q = some b)) := by
                simp only [get_same_files]
                congr 1
                apply List.filter_congr
                intro q _
                exact deep_compare_left_some fs cur q b hc
              have htail : (get_same_files fs cur rest).tail
                  = rest.filter (fun q => decide (fs.contents q = some b)) := by
                rw [hsame]
                rfl
              have hrest' : remove_same_elements (get_same_files fs cur rest).tail rest
                  = rest.filter (fun q => !(decide (fs.contents q = some b))) := by
                rw [htail]
                exact remove_same_elements_filter _ rest
              rw [hrest', hsame]
              have hlenr : (rest.filter
                  (fun q => !(decide (fs.contents q = some b)))).length ≤ n := by
                have hfl := List.length_filter_le
                  (fun q => !(decide (fs.contents q = some b))) rest
                omega
              rw [ih _ hlenr]
              rw [List.filter_cons_of_pos (by simp [hc])]
              rw [keyClasses_cons]
              rw [hc]
              have hhead : (rest.filter (fun p => (fs.contents p).isSome)).filter
                    (fun q => decide (fs.contents q = some b))
                  = rest.filter (fun q => decide (fs.contents q = some b)) := by
                rw [List.filter_filter]
                apply List.filter_congr
                intro q _
                cases hq : fs.contents q <;> simp [hq]
              have harg : (rest.filter (fun q => !(decide (fs.contents q = some b)))).filter
                    (fun p => (fs.contents p).isSome)
                  = (rest.filter (fun p => (fs.contents p).isSome)).filter
                    (fun q => decide (fs.contents q ≠ some b)) := by
                rw [List.filter_filter, List.filter_filter]
                apply List.filter_congr
                intro q _
                cases hq : fs.contents q <;> simp [hq]
              rw [hhead, harg]
              rw [List.filter_cons]
              by_cases hlen : 1 <
                  (cur :: rest.filter (fun q => decide (fs.contents q = some b))).length
              · rw [if_pos hlen, if_pos (by simpa using hlen)]
              · rw [if_neg hlen, if_neg (by simpa using hlen)]

theorem read_content_mem_props (fs : FS) (l : List Path) :
    ∀ g ∈ group_files_by_read_content fs l, ∀ p ∈ g,
      p ∈ l ∧ (fs.contents p).isSome = true := by
  intro g hg p hp
  rw [group_files_by_read_content_char] at hg
  have hg' := List.mem_of_mem_filter hg
  have hpm := keyClasses_mem_mem _ _ g hg' p hp
  have hpm' := List.mem_filter.mp hpm
  exact ⟨hpm'.1, hpm'.2⟩

theorem read_content_two_le (fs : FS) (l : List Path) :
    ∀ g ∈ group_files_by_read_content fs l, 2 ≤ g.length := by
  intro g hg
  rw [group_files_by_read_content_char] at hg
  have hlen := List.of_mem_filter hg
  simp only [decide_eq_true_eq] at hlen
  omega

theorem read_content_const (fs : FS) (l : List Path) :
    ∀ g ∈ group_files_by_read_content fs l, ∀ p ∈ g, ∀ q ∈ g,
      fs.contents p = fs.contents q := by
  intro g hg p hp q hq
  rw [group_files_by_read_content_char] at hg
  have hg' := List.mem_of_mem_filter hg
  exact keyClasses_key_const (fun p => fs.contents p) _ g hg' p hp q hq

theorem read_content_sublist (fs : FS) (l : List Path) :
    ∀ g ∈ group_files_by_read_content fs l, g.Sublist l := by
  intro g hg
  rw [group_files_by_read_content_char] at hg
  have hg' := List.mem_of_mem_filter hg
  exact (keyClasses_sublist _ _ g hg').trans (List.filter_sublist l)

theorem read_content_nodup (fs : FS) (l : List Path) (h : l.Nodup) :
    ∀ g ∈ group_files_by_read_content fs l, g.Nodup :=
  fun g hg => (read_content_sublist fs l g hg).nodup h

theorem read_content_pairwise (fs : FS) (l : List Path) :
    (group_files_by_read_content fs l).Pairwise (fun g1 g2 => ∀ p ∈ g1, p ∉ g2) := by
  rw [group_files_by_read_content_char]
  exact (keyClasses_pairwise_disjoint _ _).sublist (List.filter_sublist _)

theorem read_content_state_spec (fs : FS) (l : List Path) :
    (group_files_by_read_content_state fs l).2 = []
      ∧ (group_files_by_read_content_state fs l).1 = group_files_by_read_content fs l := by
  suffices h : ∀ (n : Nat) (l : List Path), l.length ≤ n →
      (group_files_by_read_content_state fs l).2 = []
        ∧ (group_files_by_read_content_state fs l).1 = group_files_by_read_content fs l from
    h l.length l (Nat.le_refl _)
  intro n
  induction n with
  | zero =>
      intro l hl
      have hlnil : l = [] := List.eq_nil_of_length_eq_zero (Nat.le_zero.mp hl)
      subst hlnil
      rw [group_files_by_read_content_state_nil, group_files_by_read_content_nil]
      exact ⟨rfl, rfl⟩
  | succ n ih =>
      intro l hl
      cases l with
      | nil =>
          rw [group_files_by_read_content_state_nil, group_files_by_read_content_nil]
          exact ⟨rfl, rfl⟩
      | cons cur rest =>
          simp only [List.length_cons] at hl
          rw [group_files_by_read_content_state_cons, group_files_by_read_content_cons]
          have hlen : (remove_same_elements (get_same_files fs cur rest).tail rest).length ≤ n :=
            Nat.le_trans (remove_same_elements_length_le _ _) (by omega)
          obtain ⟨h2, h1⟩ := ih _ hlen
          by_cases hcond : 1 < (get_same_files fs cur rest).length
          · simp only [if_pos hcond]
            exact ⟨h2, by rw [h1]⟩
          · simp only [if_neg hcond]
            exact ⟨h2, h1⟩

theorem foldl_append_init {α γ : Type} (f : α → List γ) :
    ∀ (L : List α) (acc : List γ),
      L.foldl (fun a x => a ++ f x) acc = acc ++ L.foldl (fun a x => a ++ f x) [] := by
  intro L
  induction L with
  | nil => intro acc; simp
  | cons x t ih =>
      intro acc
      simp only [List.foldl_cons]
      rw [ih (acc ++ f x), ih ([] ++ f x)]
      simp [List.append_assoc]

theorem mem_foldl_append {α γ : Type} (f : α → List γ) :
    ∀ (L : List α) (g : γ),
      (g ∈ L.foldl (fun a x => a ++ f x) [] ↔ ∃ x, x ∈ L ∧ g ∈ f x) := by
  intro L
  induction L with
  | nil => intro g; simp
  | cons x t ih =>
      intro g
      simp only [List.foldl_cons, List.nil_append]
      rw [foldl_append_init f t (f x)]
      simp only [List.mem_append, ih]
      constructor
      · rintro (h | ⟨y, hy, hgy⟩)
        · exact ⟨x, List.mem_cons_self _ _, h⟩
        · exact ⟨y, List.mem_cons_of_mem _ hy, hgy⟩
      · rintro ⟨y, hy, hgy⟩
        rcases List.mem_cons.mp hy with rfl | hy
        · exact Or.inl hgy
        · exact Or.inr ⟨y, hy, hgy⟩

theorem pairwise_foldl_append {α γ : Type} (R : γ → γ → Prop) (f : α → List γ) :
    ∀ L : List α,
      (∀ x ∈ L, (f x).Pairwise R) →
      L.Pairwise (fun x y => ∀ g ∈ f x, ∀ g' ∈ f y, R g g') →
      (L.foldl (fun a x => a ++ f x) []).Pairwise R := by
  intro L
  induction L with
  | nil => intro _ _; exact List.Pairwise.nil
  | cons x t ih =>
      intro hin hpair
      simp only [List.foldl_cons, List.nil_append]
      rw [foldl_append_init f t (f x)]
      rw [List.pairwise_append]
      obtain ⟨hx, hpt⟩ := List.pairwise_cons.mp hpair
      refine ⟨hin x (List.mem_cons_self _ _),
        ih (fun y hy => hin y (List.mem_cons_of_mem _ hy)) hpt, ?_⟩
      intro a ha b hb
      rw [mem_foldl_append] at hb
      obtain ⟨y, hy, hby⟩ := hb
      exact hx y hy a ha b hby

theorem foldl_append_congr {α γ : Type} (f1 f2 : α → List γ) :
    ∀ (L : List α) (acc : List γ), (∀ x ∈ L, f1 x = f2 x) →
      L.foldl (fun a x => a ++ f1 x) acc = L.foldl (fun a x => a ++ f2 x) acc := by
  intro L
  induction L with
  | nil => intro acc _; rfl
  | cons x t ih =>
      intro acc h
      simp only [List.foldl_cons]
      rw [h x (List.mem_cons_self _ _)]
      exact ih _ (fun y hy => h y (List.mem_cons_of_mem _ hy))

theorem find_duplicate_files_mem (md5 : List Nat → String) (fs : FS) (l : List Path)
    (s : Strategy) (g : List Path) :
    g ∈ find_duplicate_files md5 fs l s ↔
      ∃ g0, g0 ∈ group_files_by_size fs l ∧ g ∈ runStrategy md5 fs s g0 := by
  unfold find_duplicate_files find_duplicate_files_with
  exact mem_foldl_append _ _ g

theorem runStrategy_mem (md5 : List Nat → String) (fs : FS) (s : Strategy) (g0 : List Path) :
    ∀ g ∈ runStrategy md5 fs s g0, ∀ p ∈ g, p ∈ g0 := by
  cases s with
  | checksum =>
      intro g hg p hp
      simp only [runStrategy, group_files_by_checksum] at hg
      exact (group_files_mem_props g0 _ g hg p hp).1
  | byteExact =>
      intro g hg p hp
      simp only [runStrategy] at hg
      exact (read_content_mem_props fs g0 g hg p hp).1

theorem runStrategy_two_le (md5 : List Nat → String) (fs : FS) (s : Strategy) (g0 : List Path) :
    ∀ g ∈ runStrategy md5 fs s g0, 2 ≤ g.length := by
  cases s with
  | checksum =>
      intro g hg
      simp only [runStrategy, group_files_by_checksum] at hg
      exact group_files_two_le g0 _ g hg
  | byteExact =>
      intro g hg
      simp only [runStrategy] at hg
      exact read_content_two_le fs g0 g hg

theorem runStrategy_nodup (md5 : List Nat → String) (fs : FS) (s : Strategy) (g0 : List Path)
    (h : g0.Nodup) : ∀ g ∈ runStrategy md5 fs s g0, g.Nodup := by
  cases s with
  | checksum =>
      intro g hg
      simp only [runStrategy, group_files_by_checksum] at hg
      exact group_files_nodup g0 _ h g hg
  | byteExact =>
      intro g hg
      simp only [runStrategy] at hg
      exact read_content_nodup fs g0 h g hg

theorem runStrategy_pairwise (md5 : List Nat → String) (fs : FS) (s : Strategy)
    (g0 : List Path) :
    (runStrategy md5 fs s g0).Pairwise (fun g1 g2 => ∀ p ∈ g1, p ∉ g2) := by
  cases s with
  | checksum =>
      simp only [runStrategy, group_files_by_checksum]
      exact group_files_pairwise g0 _
  | byteExact =>
      simp only [runStrategy]
      exact read_content_pairwise fs g0

theorem sizeFeature_ok (fs : FS) (p : Path) (h : featOk (sizeFeature fs) p = true) :
    ∃ b, fs.contents p = some b ∧ b ≠ ([] : List Nat) := by
  obtain ⟨f, hf, htr⟩ := featOk_some _ p h
  cases hb : fs.contents p with
  | none =>
      rw [sizeFeature, getsize, hb] at hf
      exact absurd hf (by simp)
  | some b =>
      refine ⟨b, rfl, ?_⟩
      rw [sizeFeature, getsize, hb] at hf
      simp only [Option.map_some', Option.some.injEq] at hf
      subst hf
      simp only [Feature.truthy, decide_eq_true_eq] at htr
      intro hnil
      subst hnil
      exact htr rfl

theorem size_group_length_const (fs : FS) (l : List Path) :
    ∀ g0 ∈ group_files_by_size fs l, ∀ p ∈ g0, ∀ q ∈ g0,
      ∀ b1 b2, fs.contents p = some b1 → fs.contents q = some b2 →
        b1.length = b2.length := by
  intro g0 hg0 p hp q hq b1 b2 h1 h2
  simp only [group_files_by_size] at hg0
  have hconst := group_files_feat_const l (sizeFeature fs) g0 hg0 p hp q hq
  rw [sizeFeature, sizeFeature, getsize, getsize, h1, h2] at hconst
  simpa using hconst

theorem hashFeature_ok (md5 : List Nat → String) (fs : FS) (p : Path) (f : Feature)
    (h : hashFeature md5 fs p = some f) :
    ∃ b, fs.contents p = some b ∧ f = Feature.digest (md5 b) := by
  rw [hashFeature, get_file_hash] at h
  cases hb : fs.contents p with
  | none => rw [hb] at h; exact absurd h (by simp)
  | some b =>
      rw [hb] at h
      simp only [Option.map_some', Option.some.injEq] at h
      exact ⟨b, rfl, h.symm⟩

/-- Members of any output group of the pipeline are byte-for-byte equal
in content, provided the digest function has no collision among
equal-length contents of input files (needed only for the checksum
strategy; the byte-exact strategy never uses the digest). -/
theorem find_dup_groups_content_eq (md5 : List Nat → String) (fs : FS) (l : List Path)
    (s : Strategy)
    (hcol : ∀ p ∈ l, ∀ q ∈ l, ∀ b1 b2, fs.contents p = some b1 → fs.contents q = some b2 →
      b1.length = b2.length → md5 b1 = md5 b2 → b1 = b2) :
    ∀ g ∈ find_duplicate_files md5 fs l s, ∀ p ∈ g, ∀ q ∈ g,
      ∃ b, fs.contents p = some b ∧ fs.contents q = some b := by
  intro g hg p hp q hq
  rw [find_duplicate_files_mem] at hg
  obtain ⟨g0, hg0, hgs⟩ := hg
  have hg0size := hg0
  simp only [group_files_by_size] at hg0size
  cases s with
  | byteExact =>
      simp only [runStrategy] at hgs
      have hconst := read_content_const fs g0 g hgs p hp q hq
      obtain ⟨_, hread⟩ := read_content_mem_props fs g0 g hgs p hp
      cases hb : fs.contents p with
      | none => rw [hb] at hread; exact absurd hread (by simp)
      | some b => exact ⟨b, rfl, by rw [← hconst, hb]⟩
  | checksum =>
      simp only [runStrategy, group_files_by_checksum] at hgs
      obtain ⟨hpg0, hpok⟩ := group_files_mem_props g0 _ g hgs p hp
      obtain ⟨hqg0, hqok⟩ := group_files_mem_props g0 _ g hgs q hq
      obtain ⟨fp, hfp, _⟩ := featOk_some _ p hpok
      obtain ⟨fq, hfq, _⟩ := featOk_some _ q hqok
      have hconst := group_files_feat_const g0 _ g hgs p hp q hq
      rw [hfp, hfq] at hconst
      obtain ⟨b1, hb1, hfp'⟩ := hashFeature_ok md5 fs p fp hfp
      obtain ⟨b2, hb2, hfq'⟩ := hashFeature_ok md5 fs q fq hfq
      have hmd : md5 b1 = md5 b2 := by
        have hpq : fp = fq := by simpa using hconst
        rw [hfp', hfq'] at hpq
        simpa using hpq
      have hlen : b1.length = b2.length :=
        size_group_length_const fs l g0 hg0 p hpg0 q hqg0 b1 b2 hb1 hb2
      have hpl : p ∈ l := (group_files_mem_props l (sizeFeature fs) g0 hg0size p hpg0).1
      have hql : q ∈ l := (group_files_mem_props l (sizeFeature fs) g0 hg0size q hqg0).1
      have heq := hcol p hpl q hql b1 b2 hb1 hb2 hlen hmd
      exact ⟨b1, hb1, by rw [hb2, heq]⟩

/-- The two strategies produce the same group list when every input file
is readable, digests are nonempty strings (true of md5 hexdigests), and
no digest collision occurs among equal-length contents of input files. -/
theorem strategies_agree (md5 : List Nat → String) (fs : FS) (l : List Path)
    (hread : ∀ p ∈ l, (fs.contents p).isSome = true)
    (hne : ∀ bs : List Nat, md5 bs ≠ "")
    (hcol : ∀ p ∈ l, ∀ q ∈ l, ∀ b1 b2, fs.contents p = some b1 → fs.contents q = some b2 →
      b1.length = b2.length → md5 b1 = md5 b2 → b1 = b2) :
    find_duplicate_files md5 fs l Strategy.checksum
      = find_duplicate_files md5 fs l Strategy.byteExact := by
  unfold find_duplicate_files find_duplicate_files_with
  apply foldl_append_congr
  intro g0 hg0
  have hg0size := hg0
  simp only [group_files_by_size] at hg0size
  have hg0read : ∀ p ∈ g0, (fs.contents p).isSome = true := by
    intro p hp
    exact hread p (group_files_mem_props l (sizeFeature fs) g0 hg0size p hp).1
  simp only [runStrategy, group_files_by_checksum]
  rw [group_files_char, group_files_by_read_content_char]
  have hfilter1 : g0.filter (featOk (hashFeature md5 fs)) = g0 := by
    rw [List.filter_eq_self]
    intro p hp
    have hps := hg0read p hp
    cases hb : fs.contents p with
    | none => rw [hb] at hps; exact absurd hps (by simp)
    | some b =>
        show featOk (hashFeature md5 fs) p = true
        unfold featOk hashFeature get_file_hash
        rw [hb]
        simp [Feature.truthy, hne b]
  have hfilter2 : g0.filter (fun p => (fs.contents p).isSome) = g0 :=
    List.filter_eq_self.mpr (fun p hp => hg0read p hp)
  rw [hfilter1, hfilter2]
  congr 1
  apply keyClasses_congr
  intro x hx y hy
  have hxs := hg0read x hx
  have hys := hg0read y hy
  cases hbx : fs.contents x with
  | none => rw [hbx] at hxs; exact absurd hxs (by simp)
  | some bx =>
      cases hby : fs.contents y with
      | none => rw [hby] at hys; exact absurd hys (by simp)
      | some by' =>
          have hkx : keyOf (hashFeature md5 fs) x = Feature.digest (md5 bx) :=
            keyOf_eq _ x _ (by rw [hashFeature, get_file_hash, hbx]; rfl)
          have hky : keyOf (hashFeature md5 fs) y = Feature.digest (md5 by') :=
            keyOf_eq _ y _ (by rw [hashFeature, get_file_hash, hby]; rfl)
          rw [hkx, hky]
          constructor
          · intro hdig
            have hmd : md5 bx = md5 by' := by simpa using hdig
            have hlen : bx.length = by'.length :=
              size_group_length_const fs l g0 hg0 x hx y hy bx by' hbx hby
            have hxl : x ∈ l := (group_files_mem_props l (sizeFeature fs) g0 hg0size x hx).1
            have hyl : y ∈ l := (group_files_mem_props l (sizeFeature fs) g0 hg0size y hy).1
            have heq := hcol x hxl y hyl bx by' hbx hby hlen hmd
            rw [heq]
          · intro hcont
            have heq : bx = by' := by simpa using hcont
            rw [heq]

theorem group_files_filter_featOk (l : List Path) (feat : Path → Option Feature) :
    group_files l feat = group_files (l.filter (featOk feat)) feat := by
  rw [group_files_char, group_files_char]
  have hAB : (l.filter (featOk feat)).filter (featOk feat) = l.filter (featOk feat) := by
    rw [List.filter_filter]
    apply List.filter_congr
    intro p _
    cases h : featOk feat p <;> simp [h]
  rw [hAB]

theorem group_files_excludes_failed (l : List Path) (feat : Path → Option Feature) (p : Path)
    (h : feat p = none) : ∀ g ∈ group_files l feat, p ∉ g := by
  intro g hg hp
  have hok := (group_files_mem_props l feat g hg p hp).2
  unfold featOk at hok
  rw [h] at hok
  exact absurd hok (by simp)

theorem find_dup_excludes_empty (md5 : List Nat → String) (fs : FS) (l : List Path)
    (s : Strategy) (p : Path) (h : fs.contents p = some ([] : List Nat)) :
    ∀ g ∈ find_duplicate_files md5 fs l s, p ∉ g := by
  intro g hg hp
  rw [find_duplicate_files_mem] at hg
  obtain ⟨g0, hg0, hgs⟩ := hg
  have hpg0 := runStrategy_mem md5 fs s g0 g hgs p hp
  simp only [group_files_by_size] at hg0
  have hok := (group_files_mem_props l (sizeFeature fs) g0 hg0 p hpg0).2
  obtain ⟨b, hb, hbne⟩ := sizeFeature_ok fs p hok
  rw [h] at hb
  exact hbne (by simpa using hb.symm)

theorem find_dup_mem_input (md5 : List Nat → String) (fs : FS) (l : List Path) (s : Strategy) :
    ∀ g ∈ find_duplicate_files md5 fs l s, ∀ p ∈ g, p ∈ l := by
  intro g hg p hp
  rw [find_duplicate_files_mem] at hg
  obtain ⟨g0, hg0, hgs⟩ := hg
  have hpg0 := runStrategy_mem md5 fs s g0 g hgs p hp
  simp only [group_files_by_size] at hg0
  exact (group_files_mem_props l (sizeFeature fs) g0 hg0 p hpg0).1

theorem find_dup_nodup (md5 : List Nat → String) (fs : FS) (l : List Path) (s : Strategy)
    (h : l.Nodup) : ∀ g ∈ find_duplicate_files md5 fs l s, g.Nodup := by
  intro g hg
  rw [find_duplicate_files_mem] at hg
  obtain ⟨g0, hg0, hgs⟩ := hg
  simp only [group_files_by_size] at hg0
  have hg0nd : g0.Nodup := group_files_nodup l (sizeFeature fs) h g0 hg0
  exact runStrategy_nodup md5 fs s g0 hg0nd g hgs

theorem find_dup_pairwise (md5 : List Nat → String) (fs : FS) (l : List Path) (s : Strategy) :
    (find_duplicate_files md5 fs l s).Pairwise (fun g1 g2 => ∀ p ∈ g1, p ∉ g2) := by
  unfold find_duplicate_files find_duplicate_files_with
  apply pairwise_foldl_append
  · intro g0 _
    exact runStrategy_pairwise md5 fs s g0
  · have hsp : (group_files_by_size fs l).Pairwise (fun g1 g2 => ∀ p ∈ g1, p ∉ g2) := by
      simp only [group_files_by_size]
      exact group_files_pairwise l (sizeFeature fs)
    refine hsp.imp ?_
    intro g1 g2 hdis g hg g' hg' p hp hp'
    exact hdis p (runStrategy_mem md5 fs s g1 g hg p hp)
      (runStrategy_mem md5 fs s g2 g' hg' p hp')

/-- Claim C1, counterexample: with a digest function that collides on two
same-size files of different content (as real MD5 admits), the checksum
strategy of `find_duplicate_files` outputs a group whose two members are
not byte-for-byte equal, so the claim as stated (ground truth regardless
of strategy) is false. -/
theorem C1_counterexample :
    find_duplicate_files constHash fsCollide ["a", "b"] Strategy.checksum = [["a", "b"]]
      ∧ fsCollide.contents "a" = some [0]
      ∧ fsCollide.contents "b" = some [1]
      ∧ fsCollide.contents "a" ≠ fsCollide.contents "b" := by
  refine ⟨by decide, by decide, by decide, by decide⟩

/-- Claim C1, amended: for every input list and either strategy, all
members of every group returned by `find_duplicate_files` are
byte-for-byte equal in content, provided the digest function has no
collision among equal-length contents of input files (a hypothesis that
is vacuous for the byte-exact strategy, which never evaluates the
digest). -/
theorem C1_groups_content_equal (md5 : List Nat → String) (fs : FS) (l : List Path)
    (s : Strategy)
    (hcol : ∀ p ∈ l, ∀ q ∈ l, ∀ b1 b2, fs.contents p = some b1 → fs.contents q = some b2 →
      b1.length = b2.length → md5 b1 = md5 b2 → b1 = b2) :
    ∀ g ∈ find_duplicate_files md5 fs l s, ∀ p ∈ g, ∀ q ∈ g,
      ∃ b, fs.contents p = some b ∧ fs.contents q = some b :=
  find_dup_groups_content_eq md5 fs l s hcol

theorem C1_groups_content_equal_witness :
    ∃ b, fsEqual.contents "a" = some b ∧ fsEqual.contents "b" = some b := by
  have hany : ∀ p ∈ (["a", "b"] : List Path), fsEqual.contents p = some [1] := by
    intro p hp
    rcases List.mem_cons.mp hp with rfl | hp
    · rfl
    · rcases List.mem_cons.mp hp with rfl | hp
      · rfl
      · exact absurd hp (List.not_mem_nil p)
  have hcol : ∀ p ∈ (["a", "b"] : List Path), ∀ q ∈ (["a", "b"] : List Path),
      ∀ b1 b2, fsEqual.contents p = some b1 → fsEqual.contents q = some b2 →
        b1.length = b2.length → constHash b1 = constHash b2 → b1 = b2 := by
    intro p hp q hq b1 b2 h1 h2 _ _
    rw [hany p hp] at h1
    rw [hany q hq] at h2
    have hb1 : ([1] : List Nat) = b1 := by injection h1
    have hb2 : ([1] : List Nat) = b2 := by injection h2
    rw [← hb1, ← hb2]
  exact C1_groups_content_equal constHash fsEqual ["a", "b"] Strategy.checksum hcol
    ["a", "b"] (by decide) "a" (by decide) "b" (by decide)

/-- Claim C2: a zero-byte file is never reported in any output group of
`find_duplicate_files`, under either strategy: `group_files` discards any
file whose feature value is falsy, and the size feature of an empty file
is the falsy int 0, so empty files are dropped at the size stage. -/
theorem C2_empty_files_excluded (md5 : List Nat → String) (fs : FS) (l : List Path)
    (s : Strategy) (p : Path) (h : fs.contents p = some ([] : List Nat)) :
    ∀ g ∈ find_duplicate_files md5 fs l s, p ∉ g :=
  find_dup_excludes_empty md5 fs l s p h

theorem C2_empty_files_excluded_witness :
    ("e1" : Path) ∉ (["a", "b"] : List Path) :=
  C2_empty_files_excluded constHash fsEmpty ["e1", "e2", "a", "b"] Strategy.checksum "e1"
    (by decide) ["a", "b"] (by decide)

/-- Claim C3: every group output by `find_duplicate_files` (either
strategy) has at least two members, and the same holds at every stage:
`group_files` (used for size and checksum grouping) and
`group_files_by_read_content` both discard singleton and empty groups. -/
theorem C3_groups_have_two_members :
    (∀ (md5 : List Nat → String) (fs : FS) (l : List Path) (s : Strategy),
      ∀ g ∈ find_duplicate_files md5 fs l s, 2 ≤ g.length)
    ∧ (∀ (l : List Path) (feat : Path → Option Feature),
      ∀ g ∈ group_files l feat, 2 ≤ g.length)
    ∧ (∀ (fs : FS) (l : List Path),
      ∀ g ∈ group_files_by_read_content fs l, 2 ≤ g.length) := by
  refine ⟨?_, group_files_two_le, read_content_two_le⟩
  intro md5 fs l s g hg
  rw [find_duplicate_files_mem] at hg
  obtain ⟨g0, _, hgs⟩ := hg
  exact runStrategy_two_le md5 fs s g0 g hgs

theorem C3_groups_have_two_members_witness :
    2 ≤ (["a", "b"] : List Path).length :=
  C3_groups_have_two_members.1 constHash fsEqual ["a", "b"] Strategy.checksum
    ["a", "b"] (by decide)

/-- Claim C4: for a duplicate-free input list and either strategy, the
output groups of `find_duplicate_files` partition a subset of the input:
every member path occurs in the input, no path lies in two different
output groups, and no group contains a path twice. -/
theorem C4_partition (md5 : List Nat → String) (fs : FS) (l : List Path) (s : Strategy)
    (hnd : l.Nodup) :
    (∀ g ∈ find_duplicate_files md5 fs l s, ∀ p ∈ g, p ∈ l)
    ∧ (find_duplicate_files md5 fs l s).Pairwise (fun g1 g2 => ∀ p ∈ g1, p ∉ g2)
    ∧ (∀ g ∈ find_duplicate_files md5 fs l s, g.Nodup) :=
  ⟨find_dup_mem_input md5 fs l s, find_dup_pairwise md5 fs l s,
    find_dup_nodup md5 fs l s hnd⟩

theorem C4_partition_witness :
    (∀ g ∈ find_duplicate_files constHash fsEqual ["a", "b"] Strategy.checksum,
      ∀ p ∈ g, p ∈ (["a", "b"] : List Path))
    ∧ (find_duplicate_files constHash fsEqual ["a", "b"] Strategy.checksum).Pairwise
        (fun g1 g2 => ∀ p ∈ g1, p ∉ g2)
    ∧ (∀ g ∈ find_duplicate_files constHash fsEqual ["a", "b"] Strategy.checksum, g.Nodup) :=
  C4_partition constHash fsEqual ["a", "b"] Strategy.checksum (by decide)

/-- Claim C5: `deep_compare_two_files` (which reads both files in fixed
4096-byte chunks) returns True exactly when both files are readable and
their contents are byte-for-byte equal (all chunk pairs equal through
simultaneous end-of-file); it returns False when either file raises an
I/O error, when a chunk pair differs, or when one file ends before the
other (contents of different length). -/
theorem C5_deep_compare_iff (fs : FS) (p q : Path) :
    deep_compare_two_files fs p q = true ↔
      ∃ b1 b2, fs.contents p = some b1 ∧ fs.contents q = some b2 ∧ b1 = b2 :=
  deep_compare_two_files_iff fs p q

/-- Claim C6: when every input file is readable, digests are nonempty
strings (true of md5 hexdigests), and no digest collision occurs among
equal-length contents of input files, `find_duplicate_files` returns the
same list of groups under the checksum strategy and under the byte-exact
strategy. -/
theorem C6_strategies_agree (md5 : List Nat → String) (fs : FS) (l : List Path)
    (hread : ∀ p ∈ l, (fs.contents p).isSome = true)
    (hne : ∀ bs : List Nat, md5 bs ≠ "")
    (hcol : ∀ p ∈ l, ∀ q ∈ l, ∀ b1 b2, fs.contents p = some b1 → fs.contents q = some b2 →
      b1.length = b2.length → md5 b1 = md5 b2 → b1 = b2) :
    find_duplicate_files md5 fs l Strategy.checksum
      = find_duplicate_files md5 fs l Strategy.byteExact :=
  strategies_agree md5 fs l hread hne hcol

theorem C6_strategies_agree_witness :
    find_duplicate_files constHash fsEqual ["a", "b"] Strategy.checksum
      = find_duplicate_files constHash fsEqual ["a", "b"] Strategy.byteExact := by
  have hany : ∀ p ∈ (["a", "b"] : List Path), fsEqual.contents p = some [1] := by
    intro p hp
    rcases List.mem_cons.mp hp with rfl | hp
    · rfl
    · rcases List.mem_cons.mp hp with rfl | hp
      · rfl
      · exact absurd hp (List.not_mem_nil p)
  apply C6_strategies_agree
  · intro p hp
    rw [hany p hp]
    rfl
  · intro bs
    show ("d" : String) ≠ ""
    decide
  · intro p hp q hq b1 b2 h1 h2 _ _
    rw [hany p hp] at h1
    rw [hany q hq] at h2
    have hb1 : ([1] : List Nat) = b1 := by injection h1
    have hb2 : ([1] : List Nat) = b2 := by injection h2
    rw [← hb1, ← hb2]

/-- Claim C7: a file whose feature function fails with an I/O error is
silently excluded by `group_files` from every group, and the result is
exactly the grouping of the remaining (feature-successful) files; the
failure is never propagated (`group_files` is a total function of its
inputs in this model, the caught OSError being the `none` feature). -/
theorem C7_feature_failure_excluded (l : List Path) (feat : Path → Option Feature) (p : Path)
    (h : feat p = none) :
    (∀ g ∈ group_files l feat, p ∉ g)
    ∧ group_files l feat = group_files (l.filter (featOk feat)) feat :=
  ⟨group_files_excludes_failed l feat p h, group_files_filter_featOk l feat⟩

theorem C7_feature_failure_excluded_witness :
    (∀ g ∈ group_files ["a", "z", "b"] (sizeFeature fsEqual), ("z" : Path) ∉ g)
    ∧ group_files ["a", "z", "b"] (sizeFeature fsEqual)
        = group_files (["a", "z", "b"].filter (featOk (sizeFeature fsEqual)))
            (sizeFeature fsEqual) :=
  C7_feature_failure_excluded ["a", "z", "b"] (sizeFeature fsEqual) "z" (by decide)

/-- Claim C8: every group output by `group_files` consists of the input
files carrying one shared feature value, in exactly the input order: the
group equals the input list filtered to the feature-successful files with
that feature, and is in particular a sublist of the input. -/
theorem C8_group_order_and_key (l : List Path) (feat : Path → Option Feature) :
    ∀ g ∈ group_files l feat, ∃ f : Feature,
      (∀ p ∈ g, feat p = some f)
      ∧ g = l.filter (fun p => featOk feat p && decide (feat p = some f))
      ∧ g.Sublist l := by
  intro g hg
  obtain ⟨f, hconst, hchar⟩ := group_files_filter_char l feat g hg
  exact ⟨f, hconst, hchar, group_files_sublist l feat g hg⟩

theorem C8_group_order_and_key_witness :
    ∃ f : Feature,
      (∀ p ∈ (["a", "b"] : List Path), sizeFeature fsEqual p = some f)
      ∧ (["a", "b"] : List Path)
          = ["a", "b"].filter
              (fun p => featOk (sizeFeature fsEqual) p
                && decide (sizeFeature fsEqual p = some f))
      ∧ (["a", "b"] : List Path).Sublist ["a", "b"] :=
  C8_group_order_and_key ["a", "b"] (sizeFeature fsEqual) ["a", "b"] (by decide)

/-- Claim C9: when `find_duplicate_files` receives a first argument that
is not a list or a second argument that is not callable, it fails with a
TypeError before any grouping work; the result is the same error for
every file system, so no file I/O is performed. -/
theorem C9_typeerror_on_malformed (fs : FS) (a1 : PyArgList) (a2 : PyArgFun)
    (h : a1 = PyArgList.notList ∨ a2 = PyArgFun.notCallable) :
    find_duplicate_files_py fs a1 a2 = Except.error "TypeError" := by
  rcases h with h | h
  · subst h
    rfl
  · subst h
    cases a1 with
    | notList => rfl
    | list l => rfl

theorem C9_typeerror_on_malformed_witness :
    find_duplicate_files_py fsEqual PyArgList.notList PyArgFun.notCallable
      = Except.error "TypeError" :=
  C9_typeerror_on_malformed fsEqual PyArgList.notList PyArgFun.notCallable (Or.inl rfl)

/-- Claim C10: `group_files_by_read_content` empties its argument list in
place (modelled by explicit state passing: the final value of the
caller's list is the empty list), while computing the same groups as the
value-level function. -/
theorem C10_read_content_empties_list (fs : FS) (l : List Path) :
    (group_files_by_read_content_state fs l).2 = []
      ∧ (group_files_by_read_content_state fs l).1 = group_files_by_read_content fs l :=
  read_content_state_spec fs l

end DupFinder
